import Mathlib

/-!
# A shallow embedding of the `arcow` crate

`Arcow<T>` is an atomically reference-counted copy-on-write pointer. We model
the program state as a heap of allocation slots: slot index `p` plays the role
of the address of one `ArcowInner<T>` allocation, `none` marks a freed slot,
and fresh allocations are appended at the end so that addresses are never
reused and allocation identity is observable. The `usize` reference counter is
modelled as a natural number together with an explicit machine-word width `w`:
every hardware read-modify-write (`fetch_add`, `fetch_sub`) reduces modulo
`2 ^ w`. The wrapped type's `Clone` implementation is an explicit parameter
`cloneT : T → T`, invoked exactly where the source invokes `T::clone`.
-/

/-- `ArcowInner<T>`: one shared allocation, holding the atomic reference count
and exactly one instance of the wrapped value. -/
structure ArcowInner (T : Type) where
  refcount : Nat
  inner : T
deriving DecidableEq

/-- The heap of allocations. Slot `p` is the allocation at address `p`;
`none` is a freed slot. -/
structure Heap (T : Type) where
  slots : List (Option (ArcowInner T))
deriving DecidableEq

/-- `Arcow<T>`: the handle. Its `inner` field is the `NonNull<ArcowInner<T>>`
pointer, modelled as the slot index of the allocation it references. -/
structure Arcow where
  inner : Nat
deriving DecidableEq

/-- Read the allocation at address `p` (out of bounds reads as freed). -/
def Heap.get {T : Type} (h : Heap T) (p : Nat) : Option (ArcowInner T) :=
  (h.slots[p]?).getD none

/-- Overwrite the slot at address `p` (no-op out of bounds; all uses are in
bounds). -/
def Heap.set {T : Type} (h : Heap T) (p : Nat) (x : Option (ArcowInner T)) : Heap T :=
  ⟨h.slots.set p x⟩

/-- `Arcow::new`: box a fresh `ArcowInner { refcount: AtomicUsize::new(1), inner }`,
leak it, and point the new handle at it. Modelled as appending a fresh slot. -/
def Arcow.new {T : Type} (v : T) (h : Heap T) : Arcow × Heap T :=
  (⟨h.slots.length⟩, ⟨h.slots ++ [some ⟨1, v⟩]⟩)

/-- `Arcow::count`: `refcount.load(Ordering::Relaxed)` on the handle's current
allocation. Loading from a freed slot is undefined behaviour in the source and
never happens for live handles; it reads as `0` here. -/
def Arcow.count {T : Type} (a : Arcow) (h : Heap T) : Nat :=
  match h.get a.inner with
  | some inner => inner.refcount
  | none => 0

/-- `Deref::deref`: `&self.inner.as_ref().inner`, a pure read through the
handle's pointer. `none` models reading a freed allocation, which is undefined
behaviour in the source and never happens for live handles. -/
def Arcow.deref {T : Type} (a : Arcow) (h : Heap T) : Option T :=
  (h.get a.inner).map ArcowInner.inner

/-- `deref` takes `&self`: written in state-passing style it returns the read
result together with the heap it was given, which it cannot modify. -/
def Arcow.derefOp {T : Type} (a : Arcow) (h : Heap T) : Option T × Heap T :=
  (Arcow.deref a h, h)

/-- `Clone::clone`: `refcount.fetch_add(1, Ordering::Acquire)` — a wrapping
machine-word increment — then a second handle to the same allocation. -/
def Arcow.clone {T : Type} (w : Nat) (a : Arcow) (h : Heap T) : Arcow × Heap T :=
  match h.get a.inner with
  | some inner =>
      (⟨a.inner⟩, h.set a.inner (some ⟨(inner.refcount + 1) % 2 ^ w, inner.inner⟩))
  | none => (⟨a.inner⟩, h)

/-- `Drop::drop`: `old_count = refcount.fetch_sub(1, Ordering::Release)` — a
wrapping machine-word decrement returning the previous value — then, if
`old_count == 1`, `drop(Box::from_raw(..))` frees the allocation, running the
wrapped value's destructor. -/
def Arcow.drop {T : Type} (w : Nat) (a : Arcow) (h : Heap T) : Heap T :=
  match h.get a.inner with
  | some inner =>
      let old_count := inner.refcount
      let h1 := h.set a.inner (some ⟨(old_count + (2 ^ w - 1)) % 2 ^ w, inner.inner⟩)
      if old_count = 1 then h1.set a.inner none else h1
  | none => h

/-- `DerefMut::deref_mut`: if `Arcow::count(self) > 1`, run
`*self = Arcow::new(self.inner.as_ref().inner.clone())`: the right-hand side
clones the wrapped value (`cloneT`) and allocates a fresh allocation via
`Arcow::new`, and the assignment then drops the handle's previous reference.
Finally hand out the handle's (possibly new) target for mutation. -/
def Arcow.deref_mut {T : Type} (w : Nat) (cloneT : T → T) (a : Arcow) (h : Heap T) :
    Arcow × Heap T :=
  match h.get a.inner with
  | some inner =>
      if 1 < inner.refcount then
        let r := Arcow.new (cloneT inner.inner) h
        (r.1, Arcow.drop w a r.2)
      else (a, h)
  | none => (a, h)

/-- Writing `v` through the `&mut T` returned by `deref_mut`: the target
allocation's value is replaced; its reference count is untouched. -/
def Arcow.setValue {T : Type} (a : Arcow) (v : T) (h : Heap T) : Heap T :=
  match h.get a.inner with
  | some inner => h.set a.inner (some ⟨inner.refcount, v⟩)
  | none => h

/-- One complete mutation through a handle: `deref_mut`, then store `v` through
the returned mutable reference. -/
def Arcow.write {T : Type} (w : Nat) (cloneT : T → T) (a : Arcow) (v : T) (h : Heap T) :
    Arcow × Heap T :=
  let r := Arcow.deref_mut w cloneT a h
  (r.1, Arcow.setValue r.1 v r.2)

/-- Number of live allocations; each holds exactly one wrapped-value instance,
so this is the number of live value instances. -/
def Heap.liveValues {T : Type} (h : Heap T) : Nat :=
  (h.slots.filter Option.isSome).length

/-- A whole-program state: the list of live handles and the heap. -/
structure State (T : Type) where
  handles : List Arcow
  heap : Heap T
deriving DecidableEq

/-- The initial state: no handles, nothing allocated. -/
def State.init {T : Type} : State T := ⟨[], ⟨[]⟩⟩

/-- The operations a sequential client of the library can perform. A handle is
addressed by its index in `State.handles`. -/
inductive Op (T : Type) where
  | newOp (v : T)
  | cloneOp (i : Nat)
  | writeOp (i : Nat) (v : T)
  | dropOp (i : Nat)
deriving DecidableEq

/-- One client step. An out-of-range handle index is a no-op. `newOp` and
`cloneOp` append the handle they return; `writeOp` mutates through handle `i`,
replacing it (`deref_mut` repoints it when it splits); `dropOp` runs
`Drop::drop` and removes the handle. -/
def step {T : Type} (w : Nat) (cloneT : T → T) (op : Op T) (s : State T) : State T :=
  match op with
  | .newOp v =>
      let r := Arcow.new v s.heap
      ⟨s.handles ++ [r.1], r.2⟩
  | .cloneOp i =>
      match s.handles[i]? with
      | some a =>
          let r := Arcow.clone w a s.heap
          ⟨s.handles ++ [r.1], r.2⟩
      | none => s
  | .writeOp i v =>
      match s.handles[i]? with
      | some a =>
          let r := Arcow.write w cloneT a v s.heap
          ⟨s.handles.set i r.1, r.2⟩
      | none => s
  | .dropOp i =>
      match s.handles[i]? with
      | some a => ⟨s.handles.eraseIdx i, Arcow.drop w a s.heap⟩
      | none => s

/-- Run a sequence of client operations. -/
def steps {T : Type} (w : Nat) (cloneT : T → T) : List (Op T) → State T → State T
  | [], s => s
  | op :: ops, s => steps w cloneT ops (step w cloneT op s)

/-- Checks that every intermediate state of the run keeps the number of live
handles at least two below `2 ^ w`, so no reference count ever saturates the
machine word. (In the source each live handle occupies memory, so a count of
live handles cannot reach `usize::MAX`.) -/
def boundedRun {T : Type} (w : Nat) (cloneT : T → T) : List (Op T) → State T → Bool
  | [], _ => true
  | op :: ops, s =>
      decide (s.handles.length + 1 < 2 ^ w) && boundedRun w cloneT ops (step w cloneT op s)

/-- Number of handles in `l` pointing at address `p`. -/
def pointing (l : List Arcow) (p : Nat) : Nat :=
  l.countP (fun a => a.inner == p)

/-- The reference-counting invariant: every handle points into the heap, and
every live allocation's count is exactly the number of live handles pointing
at it and is positive. -/
structure WF {T : Type} (s : State T) : Prop where
  hmem : ∀ a ∈ s.handles, a.inner < s.heap.slots.length
  hcount : ∀ p inner, s.heap.get p = some inner → inner.refcount = pointing s.handles p
  hpos : ∀ p inner, s.heap.get p = some inner → 0 < inner.refcount

/-! ## Machine-word arithmetic -/

/-- A wrapping increment that stays below `2 ^ w` is an exact increment. -/
theorem wrapIncr_eq {w c : Nat} (h : c + 1 < 2 ^ w) : (c + 1) % 2 ^ w = c + 1 :=
  Nat.mod_eq_of_lt h

/-- A wrapping decrement of a positive in-range word is an exact decrement. -/
theorem wrapDecr_eq {w c : Nat} (h1 : 1 ≤ c) (h2 : c < 2 ^ w) :
    (c + (2 ^ w - 1)) % 2 ^ w = c - 1 := by
  have hpow : 1 ≤ 2 ^ w := Nat.one_le_two_pow
  have hc : c + (2 ^ w - 1) = (c - 1) + 2 ^ w := by omega
  rw [hc, Nat.add_mod_right, Nat.mod_eq_of_lt (by omega)]

/-! ## Heap lemmas -/

theorem Heap.get_set_self {T : Type} (h : Heap T) (p : Nat) (x : Option (ArcowInner T))
    (hp : p < h.slots.length) : (h.set p x).get p = x := by
  simp [Heap.get, Heap.set, List.getElem?_set_self hp]

theorem Heap.get_set_ne {T : Type} (h : Heap T) {p q : Nat} (x : Option (ArcowInner T))
    (hpq : p ≠ q) : (h.set p x).get q = h.get q := by
  simp [Heap.get, Heap.set, List.getElem?_set_ne hpq]

theorem Heap.length_set {T : Type} (h : Heap T) (p : Nat) (x : Option (ArcowInner T)) :
    (h.set p x).slots.length = h.slots.length := by
  simp [Heap.set]

theorem Heap.get_lt_length {T : Type} {h : Heap T} {p : Nat} {x : ArcowInner T}
    (hget : h.get p = some x) : p < h.slots.length := by
  by_contra hn
  rw [Heap.get, List.getElem?_eq_none (by omega)] at hget
  simp at hget

/-! ## Small-step characterisations of each operation -/

theorem Arcow.get_new_self {T : Type} (v : T) (h : Heap T) :
    (Arcow.new v h).2.get (Arcow.new v h).1.inner = some ⟨1, v⟩ := by
  simp [Arcow.new, Heap.get, List.getElem?_concat_length]

theorem Arcow.get_new_old {T : Type} (v : T) (h : Heap T) {p : Nat}
    (hp : p < h.slots.length) : (Arcow.new v h).2.get p = h.get p := by
  simp [Arcow.new, Heap.get, List.getElem?_append, hp]

theorem Arcow.count_eq {T : Type} (a : Arcow) (h : Heap T) {c : Nat} {v : T}
    (hget : h.get a.inner = some ⟨c, v⟩) : Arcow.count a h = c := by
  simp [Arcow.count, hget]

theorem Arcow.deref_eq {T : Type} (a : Arcow) (h : Heap T) {c : Nat} {v : T}
    (hget : h.get a.inner = some ⟨c, v⟩) : Arcow.deref a h = some v := by
  simp [Arcow.deref, hget]

theorem Arcow.clone_spec {T : Type} (w : Nat) (a : Arcow) (h : Heap T) {c : Nat} {v : T}
    (hget : h.get a.inner = some ⟨c, v⟩) :
    Arcow.clone w a h = (⟨a.inner⟩, h.set a.inner (some ⟨(c + 1) % 2 ^ w, v⟩)) := by
  simp [Arcow.clone, hget]

theorem Arcow.drop_free {T : Type} (w : Nat) (a : Arcow) (h : Heap T) {v : T}
    (hget : h.get a.inner = some ⟨1, v⟩) :
    Arcow.drop w a h = h.set a.inner none := by
  simp [Arcow.drop, hget, Heap.set, List.set_set]

theorem Arcow.drop_dec {T : Type} (w : Nat) (a : Arcow) (h : Heap T) {c : Nat} {v : T}
    (hget : h.get a.inner = some ⟨c, v⟩) (hc : c ≠ 1) :
    Arcow.drop w a h = h.set a.inner (some ⟨(c + (2 ^ w - 1)) % 2 ^ w, v⟩) := by
  simp [Arcow.drop, hget, hc]

theorem Arcow.deref_mut_unique {T : Type} (w : Nat) (cloneT : T → T) (a : Arcow)
    (h : Heap T) {c : Nat} {v : T}
    (hget : h.get a.inner = some ⟨c, v⟩) (hc : ¬ 1 < c) :
    Arcow.deref_mut w cloneT a h = (a, h) := by
  simp [Arcow.deref_mut, hget, hc]

theorem Arcow.deref_mut_split {T : Type} (w : Nat) (cloneT : T → T) (a : Arcow)
    (h : Heap T) {c : Nat} {v : T}
    (hget : h.get a.inner = some ⟨c, v⟩) (hc : 1 < c) :
    Arcow.deref_mut w cloneT a h =
      (⟨h.slots.length⟩,
       Heap.set ⟨h.slots ++ [some ⟨1, cloneT v⟩]⟩ a.inner
         (some ⟨(c + (2 ^ w - 1)) % 2 ^ w, v⟩)) := by
  have hlt := Heap.get_lt_length hget
  have hget2 : (⟨h.slots ++ [some ⟨1, cloneT v⟩]⟩ : Heap T).get a.inner = some ⟨c, v⟩ := by
    simpa [Heap.get, List.getElem?_append, hlt] using hget
  rw [Arcow.deref_mut, hget]
  simp only [hc, if_pos]
  rw [Arcow.new]
  rw [Arcow.drop_dec w a _ hget2 (by omega)]

theorem Arcow.setValue_spec {T : Type} (a : Arcow) (v : T) (h : Heap T) {c : Nat} {v0 : T}
    (hget : h.get a.inner = some ⟨c, v0⟩) :
    Arcow.setValue a v h = h.set a.inner (some ⟨c, v⟩) := by
  simp [Arcow.setValue, hget]

/-! ## Counting handles -/

theorem mem_of_getElemOpt {α : Type} {l : List α} {i : Nat} {a : α}
    (h : l[i]? = some a) : a ∈ l := by
  obtain ⟨hlt, rfl⟩ := List.getElem?_eq_some.mp h
  exact List.getElem_mem hlt

theorem countP_eraseIdx_add {α : Type} (pred : α → Bool) (l : List α) :
    ∀ (i : Nat) (a : α), l[i]? = some a →
      l.countP pred = (l.eraseIdx i).countP pred + (if pred a then 1 else 0) := by
  induction l with
  | nil => intro i a h; simp at h
  | cons x xs ih =>
      intro i a h
      cases i with
      | zero =>
          simp only [List.getElem?_cons_zero, Option.some.injEq] at h
          subst h
          simp [List.countP_cons, List.eraseIdx_cons_zero]
      | succ i =>
          simp only [List.getElem?_cons_succ] at h
          rw [List.eraseIdx_cons_succ, List.countP_cons, List.countP_cons, ih i a h]
          omega

theorem countP_set_add {α : Type} (pred : α → Bool) (l : List α) :
    ∀ (i : Nat) (a b : α), l[i]? = some a →
      (l.set i b).countP pred + (if pred a then 1 else 0)
        = l.countP pred + (if pred b then 1 else 0) := by
  induction l with
  | nil => intro i a b h; simp at h
  | cons x xs ih =>
      intro i a b h
      cases i with
      | zero =>
          simp only [List.getElem?_cons_zero, Option.some.injEq] at h
          subst h
          simp only [List.set_cons_zero, List.countP_cons]
          omega
      | succ i =>
          simp only [List.getElem?_cons_succ] at h
          rw [List.set_cons_succ, List.countP_cons, List.countP_cons]
          have := ih i a b h
          omega

theorem pointing_append {l : List Arcow} {b : Arcow} {p : Nat} :
    pointing (l ++ [b]) p = pointing l p + (if b.inner = p then 1 else 0) := by
  simp [pointing, List.countP_append, List.countP_cons]

theorem pointing_eraseIdx_add {l : List Arcow} {i : Nat} {a : Arcow} {p : Nat}
    (h : l[i]? = some a) :
    pointing l p = pointing (l.eraseIdx i) p + (if a.inner = p then 1 else 0) := by
  have := countP_eraseIdx_add (fun x => x.inner == p) l i a h
  simpa [pointing] using this

theorem pointing_set_add {l : List Arcow} {i : Nat} {a b : Arcow} {p : Nat}
    (h : l[i]? = some a) :
    pointing (l.set i b) p + (if a.inner = p then 1 else 0)
      = pointing l p + (if b.inner = p then 1 else 0) := by
  have := countP_set_add (fun x => x.inner == p) l i a b h
  simpa [pointing] using this

theorem pointing_eq_zero {l : List Arcow} {n : Nat}
    (h : ∀ a ∈ l, a.inner < n) : pointing l n = 0 := by
  rw [pointing, List.countP_eq_zero]
  intro a ha
  have := h a ha
  simp only [beq_iff_eq]
  omega

theorem pointing_pos {l : List Arcow} {a : Arcow} (ha : a ∈ l) :
    0 < pointing l a.inner := by
  rw [pointing, List.countP_pos_iff]
  exact ⟨a, ha, by simp⟩

theorem pointing_le_length (l : List Arcow) (p : Nat) : pointing l p ≤ l.length :=
  List.countP_le_length _

/-- Reading a heap extended by one fresh slot. -/
theorem Heap.get_append_one {T : Type} (h : Heap T) (x : Option (ArcowInner T)) (p : Nat) :
    (Heap.mk (h.slots ++ [x])).get p =
      if p < h.slots.length then h.get p
      else if p = h.slots.length then x else none := by
  by_cases hp : p < h.slots.length
  · simp [Heap.get, List.getElem?_append, hp]
  · by_cases he : p = h.slots.length
    · subst he
      simp [Heap.get, List.getElem?_concat_length, hp]
    · have h1 : h.slots.length ≤ p := by omega
      rw [Heap.get, List.getElem?_eq_none (by simp; omega)]
      simp [hp, he]

/-! ## Preservation of the counting invariant -/

theorem wf_step_new {T : Type} (w : Nat) (cloneT : T → T) (v : T) (s : State T)
    (hwf : WF s) : WF (step w cloneT (Op.newOp v) s) := by
  have hstep : step w cloneT (Op.newOp v) s
      = ⟨s.handles ++ [⟨s.heap.slots.length⟩], ⟨s.heap.slots ++ [some ⟨1, v⟩]⟩⟩ := rfl
  rw [hstep]
  refine ⟨?_, ?_, ?_⟩
  · intro a ha
    rw [List.mem_append, List.mem_singleton] at ha
    simp only [List.length_append, List.length_cons, List.length_nil]
    rcases ha with ha | rfl
    · have h1 := hwf.hmem a ha
      omega
    · simp
  · intro p inner hget
    rw [Heap.get_append_one] at hget
    rw [pointing_append]
    split_ifs at hget with h1 h2
    · have h3 := hwf.hcount p inner hget
      have hne : (⟨s.heap.slots.length⟩ : Arcow).inner ≠ p := by simp; omega
      rw [if_neg hne]
      omega
    · subst h2
      obtain rfl : (⟨1, v⟩ : ArcowInner T) = inner := by
        simpa using hget
      have h0 : pointing s.handles s.heap.slots.length = 0 := pointing_eq_zero hwf.hmem
      simp [h0]
  · intro p inner hget
    rw [Heap.get_append_one] at hget
    split_ifs at hget with h1 h2
    · exact hwf.hpos p inner hget
    · obtain rfl : (⟨1, v⟩ : ArcowInner T) = inner := by simpa using hget
      simp

theorem pointing_set_self {l : List Arcow} {i : Nat} {a : Arcow} (h : l[i]? = some a)
    (p : Nat) : pointing (l.set i a) p = pointing l p := by
  have h1 := pointing_set_add (b := a) (p := p) h
  omega

theorem wf_step_clone {T : Type} (w : Nat) (cloneT : T → T) (i : Nat) (s : State T)
    (hwf : WF s) (hb : s.handles.length + 1 < 2 ^ w) :
    WF (step w cloneT (Op.cloneOp i) s) := by
  cases hidx : s.handles[i]? with
  | none => simpa [step, hidx] using hwf
  | some a =>
    have hamem : a ∈ s.handles := mem_of_getElemOpt hidx
    cases hga : s.heap.get a.inner with
    | none =>
        have hstep : step w cloneT (Op.cloneOp i) s = ⟨s.handles ++ [a], s.heap⟩ := by
          simp [step, hidx, Arcow.clone, hga]
        rw [hstep]
        refine ⟨?_, ?_, ?_⟩
        · intro b hb2
          rw [List.mem_append, List.mem_singleton] at hb2
          rcases hb2 with hb2 | rfl
          · exact hwf.hmem b hb2
          · exact hwf.hmem _ hamem
        · intro p inner hget
          have hne : a.inner ≠ p := by
            intro he
            rw [← he, hga] at hget
            exact Option.noConfusion hget
          rw [pointing_append, if_neg hne]
          have h1 := hwf.hcount p inner hget
          omega
        · intro p inner hget
          exact hwf.hpos p inner hget
    | some inner0 =>
        obtain ⟨c, v⟩ := inner0
        have hc : c = pointing s.handles a.inner := hwf.hcount _ _ hga
        have halt := Heap.get_lt_length hga
        have hclt : c + 1 < 2 ^ w := by
          have h1 := pointing_le_length s.handles a.inner
          omega
        have hstep : step w cloneT (Op.cloneOp i) s
            = ⟨s.handles ++ [a], s.heap.set a.inner (some ⟨(c + 1) % 2 ^ w, v⟩)⟩ := by
          simp [step, hidx, Arcow.clone, hga]
        rw [hstep]
        rw [wrapIncr_eq hclt]
        refine ⟨?_, ?_, ?_⟩
        · intro b hb2
          rw [List.mem_append, List.mem_singleton] at hb2
          rw [Heap.length_set]
          rcases hb2 with hb2 | rfl
          · exact hwf.hmem b hb2
          · exact hwf.hmem _ hamem
        · intro p inner hget
          rw [pointing_append]
          by_cases hp : a.inner = p
          · subst hp
            rw [Heap.get_set_self _ _ _ halt] at hget
            obtain rfl : (⟨c + 1, v⟩ : ArcowInner T) = inner := by simpa using hget
            rw [if_pos rfl]
            show c + 1 = pointing s.handles a.inner + 1
            omega
          · rw [Heap.get_set_ne _ _ hp] at hget
            rw [if_neg hp]
            have h1 := hwf.hcount p inner hget
            omega
        · intro p inner hget
          by_cases hp : a.inner = p
          · subst hp
            rw [Heap.get_set_self _ _ _ halt] at hget
            obtain rfl : (⟨c + 1, v⟩ : ArcowInner T) = inner := by simpa using hget
            simp
          · rw [Heap.get_set_ne _ _ hp] at hget
            exact hwf.hpos p inner hget

theorem wf_step_drop {T : Type} (w : Nat) (cloneT : T → T) (i : Nat) (s : State T)
    (hwf : WF s) (hb : s.handles.length + 1 < 2 ^ w) :
    WF (step w cloneT (Op.dropOp i) s) := by
  cases hidx : s.handles[i]? with
  | none => simpa [step, hidx] using hwf
  | some a =>
    have hamem : a ∈ s.handles := mem_of_getElemOpt hidx
    cases hga : s.heap.get a.inner with
    | none =>
        have hstep : step w cloneT (Op.dropOp i) s = ⟨s.handles.eraseIdx i, s.heap⟩ := by
          simp [step, hidx, Arcow.drop, hga]
        rw [hstep]
        refine ⟨?_, ?_, ?_⟩
        · intro b hb2
          exact hwf.hmem b (List.mem_of_mem_eraseIdx hb2)
        · intro p inner hget
          have hne : a.inner ≠ p := by
            intro he
            rw [← he, hga] at hget
            exact Option.noConfusion hget
          have h1 := pointing_eraseIdx_add (p := p) hidx
          rw [if_neg hne] at h1
          have h2 := hwf.hcount p inner hget
          dsimp only
          omega
        · intro p inner hget
          exact hwf.hpos p inner hget
    | some inner0 =>
        obtain ⟨c, v⟩ := inner0
        have hc : c = pointing s.handles a.inner := hwf.hcount _ _ hga
        have hcpos : 0 < c := hwf.hpos _ _ hga
        have halt := Heap.get_lt_length hga
        have hclt : c < 2 ^ w := by
          have h1 := pointing_le_length s.handles a.inner
          omega
        by_cases h1 : c = 1
        · subst h1
          have hstep : step w cloneT (Op.dropOp i) s
              = ⟨s.handles.eraseIdx i, s.heap.set a.inner none⟩ := by
            simp only [step, hidx]
            rw [Arcow.drop_free w a _ hga]
          rw [hstep]
          refine ⟨?_, ?_, ?_⟩
          · intro b hb2
            rw [Heap.length_set]
            exact hwf.hmem b (List.mem_of_mem_eraseIdx hb2)
          · intro p inner hget
            by_cases hp : a.inner = p
            · subst hp
              rw [Heap.get_set_self _ _ _ halt] at hget
              exact Option.noConfusion hget
            · rw [Heap.get_set_ne _ _ hp] at hget
              have h2 := pointing_eraseIdx_add (p := p) hidx
              rw [if_neg hp] at h2
              have h3 := hwf.hcount p inner hget
              dsimp only
              omega
          · intro p inner hget
            by_cases hp : a.inner = p
            · subst hp
              rw [Heap.get_set_self _ _ _ halt] at hget
              exact Option.noConfusion hget
            · rw [Heap.get_set_ne _ _ hp] at hget
              exact hwf.hpos p inner hget
        · have hstep : step w cloneT (Op.dropOp i) s
              = ⟨s.handles.eraseIdx i,
                 s.heap.set a.inner (some ⟨(c + (2 ^ w - 1)) % 2 ^ w, v⟩)⟩ := by
            simp only [step, hidx]
            rw [Arcow.drop_dec w a _ hga h1]
          rw [hstep]
          rw [wrapDecr_eq hcpos hclt]
          refine ⟨?_, ?_, ?_⟩
          · intro b hb2
            rw [Heap.length_set]
            exact hwf.hmem b (List.mem_of_mem_eraseIdx hb2)
          · intro p inner hget
            have h2 := pointing_eraseIdx_add (p := p) hidx
            by_cases hp : a.inner = p
            · subst hp
              rw [Heap.get_set_self _ _ _ halt] at hget
              obtain rfl : (⟨c - 1, v⟩ : ArcowInner T) = inner := by simpa using hget
              rw [if_pos rfl] at h2
              show c - 1 = pointing (s.handles.eraseIdx i) a.inner
              omega
            · rw [Heap.get_set_ne _ _ hp] at hget
              rw [if_neg hp] at h2
              have h3 := hwf.hcount p inner hget
              dsimp only
              omega
          · intro p inner hget
            by_cases hp : a.inner = p
            · subst hp
              rw [Heap.get_set_self _ _ _ halt] at hget
              obtain rfl : (⟨c - 1, v⟩ : ArcowInner T) = inner := by simpa using hget
              simp only []
              omega
            · rw [Heap.get_set_ne _ _ hp] at hget
              exact hwf.hpos p inner hget

theorem wf_step_write {T : Type} (w : Nat) (cloneT : T → T) (i : Nat) (v : T) (s : State T)
    (hwf : WF s) (hb : s.handles.length + 1 < 2 ^ w) :
    WF (step w cloneT (Op.writeOp i v) s) := by
  cases hidx : s.handles[i]? with
  | none => simpa [step, hidx] using hwf
  | some a =>
    have hamem : a ∈ s.handles := mem_of_getElemOpt hidx
    cases hga : s.heap.get a.inner with
    | none =>
        have hstep : step w cloneT (Op.writeOp i v) s = ⟨s.handles.set i a, s.heap⟩ := by
          simp [step, hidx, Arcow.write, Arcow.deref_mut, hga, Arcow.setValue]
        rw [hstep]
        refine ⟨?_, ?_, ?_⟩
        · intro b hb2
          rcases List.mem_or_eq_of_mem_set hb2 with hb2 | rfl
          · exact hwf.hmem b hb2
          · exact hwf.hmem _ hamem
        · intro p inner hget
          have h1 := hwf.hcount p inner hget
          have h2 := pointing_set_self hidx p
          dsimp only
          omega
        · intro p inner hget
          exact hwf.hpos p inner hget
    | some inner0 =>
        obtain ⟨c, v0⟩ := inner0
        have hc : c = pointing s.handles a.inner := hwf.hcount _ _ hga
        have hcpos : 0 < c := hwf.hpos _ _ hga
        have halt := Heap.get_lt_length hga
        have hclt : c < 2 ^ w := by
          have h1 := pointing_le_length s.handles a.inner
          omega
        by_cases hshared : 1 < c
        · -- the split path
          have hne : a.inner ≠ s.heap.slots.length := by omega
          have hmut : Arcow.deref_mut w cloneT a s.heap
              = (⟨s.heap.slots.length⟩,
                 Heap.set ⟨s.heap.slots ++ [some ⟨1, cloneT v0⟩]⟩ a.inner
                   (some ⟨c - 1, v0⟩)) := by
            rw [Arcow.deref_mut_split w cloneT a s.heap hga hshared, wrapDecr_eq hcpos hclt]
          have hgetlen :
              (Heap.set ⟨s.heap.slots ++ [some ⟨1, cloneT v0⟩]⟩ a.inner
                  (some ⟨c - 1, v0⟩)).get s.heap.slots.length
                = some ⟨1, cloneT v0⟩ := by
            rw [Heap.get_set_ne _ _ hne, Heap.get_append_one]
            simp
          have hstep : step w cloneT (Op.writeOp i v) s
              = ⟨s.handles.set i ⟨s.heap.slots.length⟩,
                 Heap.set
                   (Heap.set ⟨s.heap.slots ++ [some ⟨1, cloneT v0⟩]⟩ a.inner
                     (some ⟨c - 1, v0⟩))
                   s.heap.slots.length (some ⟨1, v⟩)⟩ := by
            simp only [step, hidx, Arcow.write, hmut, Arcow.setValue, hgetlen]
          rw [hstep]
          have hlen2 :
              (Heap.set ⟨s.heap.slots ++ [some ⟨1, cloneT v0⟩]⟩ a.inner
                  (some ⟨c - 1, v0⟩)).slots.length = s.heap.slots.length + 1 := by
            rw [Heap.length_set]
            simp
          refine ⟨?_, ?_, ?_⟩
          · intro b hb2
            rw [Heap.length_set, hlen2]
            rcases List.mem_or_eq_of_mem_set hb2 with hb2 | rfl
            · have h1 := hwf.hmem b hb2
              omega
            · show s.heap.slots.length < s.heap.slots.length + 1
              omega
          · intro p inner hget
            dsimp only at hget ⊢
            by_cases hp : p = s.heap.slots.length
            · subst hp
              rw [Heap.get_set_self _ _ _ (by omega)] at hget
              obtain rfl : (⟨1, v⟩ : ArcowInner T) = inner := by simpa using hget
              have h2 := pointing_set_add (b := (⟨s.heap.slots.length⟩ : Arcow)) (p := s.heap.slots.length) hidx
              rw [if_neg hne, if_pos rfl] at h2
              have h0 : pointing s.handles s.heap.slots.length = 0 := pointing_eq_zero hwf.hmem
              show 1 = pointing (s.handles.set i ⟨s.heap.slots.length⟩) s.heap.slots.length
              omega
            · rw [Heap.get_set_ne _ _ (fun he => hp he.symm)] at hget
              by_cases hq : a.inner = p
              · subst hq
                rw [Heap.get_set_self _ _ _ (by simp; omega)] at hget
                obtain rfl : (⟨c - 1, v0⟩ : ArcowInner T) = inner := by simpa using hget
                have h2 := pointing_set_add (b := (⟨s.heap.slots.length⟩ : Arcow)) (p := a.inner) hidx
                rw [if_pos rfl, if_neg (fun he => hp (by simpa using he.symm))] at h2
                show c - 1 = pointing (s.handles.set i ⟨s.heap.slots.length⟩) a.inner
                omega
              · rw [Heap.get_set_ne _ _ hq, Heap.get_append_one] at hget
                have h2 := pointing_set_add (b := (⟨s.heap.slots.length⟩ : Arcow)) (p := p) hidx
                rw [if_neg hq, if_neg (by simpa using fun he => hp he.symm)] at h2
                split_ifs at hget with h3
                have h5 := hwf.hcount p inner hget
                omega
          · intro p inner hget
            dsimp only at hget
            by_cases hp : p = s.heap.slots.length
            · subst hp
              rw [Heap.get_set_self _ _ _ (by omega)] at hget
              obtain rfl : (⟨1, v⟩ : ArcowInner T) = inner := by simpa using hget
              simp
            · rw [Heap.get_set_ne _ _ (fun he => hp he.symm)] at hget
              by_cases hq : a.inner = p
              · subst hq
                rw [Heap.get_set_self _ _ _ (by simp; omega)] at hget
                obtain rfl : (⟨c - 1, v0⟩ : ArcowInner T) = inner := by simpa using hget
                show 0 < c - 1
                omega
              · rw [Heap.get_set_ne _ _ hq, Heap.get_append_one] at hget
                split_ifs at hget with h3
                exact hwf.hpos p inner hget
        · -- the in-place path
          have hmut : Arcow.deref_mut w cloneT a s.heap = (a, s.heap) :=
            Arcow.deref_mut_unique w cloneT a s.heap hga hshared
          have hstep : step w cloneT (Op.writeOp i v) s
              = ⟨s.handles.set i a, s.heap.set a.inner (some ⟨c, v⟩)⟩ := by
            simp only [step, hidx, Arcow.write, hmut, Arcow.setValue, hga]
          rw [hstep]
          refine ⟨?_, ?_, ?_⟩
          · intro b hb2
            rw [Heap.length_set]
            rcases List.mem_or_eq_of_mem_set hb2 with hb2 | rfl
            · exact hwf.hmem b hb2
            · exact hwf.hmem _ hamem
          · intro p inner hget
            dsimp only at hget ⊢
            have h2 := pointing_set_self hidx p
            by_cases hp : a.inner = p
            · subst hp
              rw [Heap.get_set_self _ _ _ halt] at hget
              obtain rfl : (⟨c, v⟩ : ArcowInner T) = inner := by simpa using hget
              show c = pointing (s.handles.set i a) a.inner
              omega
            · rw [Heap.get_set_ne _ _ hp] at hget
              have h1 := hwf.hcount p inner hget
              omega
          · intro p inner hget
            dsimp only at hget
            by_cases hp : a.inner = p
            · subst hp
              rw [Heap.get_set_self _ _ _ halt] at hget
              obtain rfl : (⟨c, v⟩ : ArcowInner T) = inner := by simpa using hget
              show 0 < c
              omega
            · rw [Heap.get_set_ne _ _ hp] at hget
              exact hwf.hpos p inner hget

theorem wf_step {T : Type} (w : Nat) (cloneT : T → T) (op : Op T) (s : State T)
    (hwf : WF s) (hb : s.handles.length + 1 < 2 ^ w) : WF (step w cloneT op s) := by
  cases op with
  | newOp v => exact wf_step_new w cloneT v s hwf
  | cloneOp i => exact wf_step_clone w cloneT i s hwf hb
  | writeOp i v => exact wf_step_write w cloneT i v s hwf hb
  | dropOp i => exact wf_step_drop w cloneT i s hwf hb

theorem wf_steps {T : Type} (w : Nat) (cloneT : T → T) (ops : List (Op T)) (s : State T)
    (hwf : WF s) (hb : boundedRun w cloneT ops s = true) : WF (steps w cloneT ops s) := by
  induction ops generalizing s with
  | nil => exact hwf
  | cons op ops ih =>
      rw [boundedRun, Bool.and_eq_true, decide_eq_true_iff] at hb
      exact ih (step w cloneT op s) (wf_step w cloneT op s hwf hb.1) hb.2

theorem wf_init {T : Type} : WF (State.init (T := T)) := by
  refine ⟨?_, ?_, ?_⟩
  · intro a ha
    simp [State.init] at ha
  · intro p inner hget
    simp [State.init, Heap.get] at hget
  · intro p inner hget
    simp [State.init, Heap.get] at hget

/-- In a well-formed state with no live handles, every allocation has been
freed: no wrapped-value instance is live. -/
theorem liveValues_eq_zero {T : Type} (s : State T) (hwf : WF s)
    (hnone : s.handles = []) : s.heap.liveValues = 0 := by
  rw [Heap.liveValues, List.length_eq_zero, List.filter_eq_nil_iff]
  intro x hx
  cases x with
  | none => simp
  | some inner =>
      exfalso
      obtain ⟨p, hp, hxp⟩ := List.mem_iff_getElem.mp hx
      have hget : s.heap.get p = some inner := by
        rw [Heap.get, List.getElem?_eq_getElem hp, hxp]
        rfl
      have h1 := hwf.hcount p inner hget
      have h2 := hwf.hpos p inner hget
      rw [hnone] at h1
      simp [pointing] at h1
      omega

/-! ## The claims -/

/-- C1: for a handle whose allocation count is greater than 1, `deref_mut`
duplicates the wrapped value via `T`'s copy operation, allocates a new shared
allocation with count 1 holding the duplicate (at a previously unused
address), repoints the handle to the new allocation, decrements the old
allocation's count by one, and returns a mutable view into the new
allocation's value. -/
theorem C1_deref_mut_splits_when_shared {T : Type} (w : Nat) (cloneT : T → T)
    (a : Arcow) (h : Heap T) (c : Nat) (v : T)
    (hget : h.get a.inner = some ⟨c, v⟩) (hshared : 1 < c) (hclt : c < 2 ^ w) :
    (Arcow.deref_mut w cloneT a h).1.inner = h.slots.length
    ∧ (Arcow.deref_mut w cloneT a h).1.inner ≠ a.inner
    ∧ h.get h.slots.length = none
    ∧ (Arcow.deref_mut w cloneT a h).2.get (Arcow.deref_mut w cloneT a h).1.inner
        = some ⟨1, cloneT v⟩
    ∧ (Arcow.deref_mut w cloneT a h).2.get a.inner = some ⟨c - 1, v⟩
    ∧ Arcow.deref (Arcow.deref_mut w cloneT a h).1 (Arcow.deref_mut w cloneT a h).2
        = some (cloneT v) := by
  have hcpos : 0 < c := by omega
  have halt := Heap.get_lt_length hget
  have hne : a.inner ≠ h.slots.length := by omega
  rw [Arcow.deref_mut_split w cloneT a h hget hshared, wrapDecr_eq hcpos hclt]
  dsimp only
  refine ⟨rfl, by omega, ?_, ?_, ?_, ?_⟩
  · rw [Heap.get, List.getElem?_eq_none (le_refl _)]
    rfl
  · rw [Heap.get_set_ne _ _ hne, Heap.get_append_one]
    simp
  · rw [Heap.get_set_self _ _ _ (by simp; omega)]
  · rw [Arcow.deref, Heap.get_set_ne _ _ hne, Heap.get_append_one]
    simp

/-- Witness for C1 at a concrete shared allocation (count 2, value 5). -/
theorem C1_witness :
    ((⟨[some ⟨2, 5⟩]⟩ : Heap Nat).get (Arcow.inner ⟨0⟩) = some ⟨2, 5⟩
      ∧ 1 < 2 ∧ 2 < 2 ^ 4)
    ∧ (Arcow.deref_mut 4 id ⟨0⟩ (⟨[some ⟨2, 5⟩]⟩ : Heap Nat)).2.get 0 = some ⟨1, 5⟩ :=
  ⟨⟨by decide, by decide, by decide⟩,
   (C1_deref_mut_splits_when_shared 4 id ⟨0⟩ ⟨[some ⟨2, 5⟩]⟩ 2 5 (by decide) (by decide)
     (by decide)).2.2.2.2.1⟩

/-- C2: for a handle whose allocation count equals 1, `deref_mut` hands out the
existing allocation in place: the result is the unchanged handle and the
unchanged heap whatever `T`'s copy operation is (so no copy of `T` is made and
no allocation happens), and a whole mutation keeps the handle pointing at the
same allocation with the heap the same size. -/
theorem C2_deref_mut_in_place_when_unique {T : Type} (w : Nat) (a : Arcow)
    (h : Heap T) (v : T) (hget : h.get a.inner = some ⟨1, v⟩) :
    (∀ cloneT : T → T, Arcow.deref_mut w cloneT a h = (a, h))
    ∧ (∀ (cloneT : T → T) (u : T),
        (Arcow.write w cloneT a u h).1 = a
        ∧ (Arcow.write w cloneT a u h).2.slots.length = h.slots.length) := by
  have hmut : ∀ cloneT : T → T, Arcow.deref_mut w cloneT a h = (a, h) := fun cloneT =>
    Arcow.deref_mut_unique w cloneT a h hget (by omega)
  refine ⟨hmut, fun cloneT u => ?_⟩
  rw [Arcow.write, hmut cloneT]
  dsimp only
  rw [Arcow.setValue_spec a u h hget]
  exact ⟨rfl, Heap.length_set h a.inner _⟩

/-- Witness for C2 at a concrete unique allocation (count 1, value 5). -/
theorem C2_witness :
    (⟨[some ⟨1, 5⟩]⟩ : Heap Nat).get (Arcow.inner ⟨0⟩) = some ⟨1, 5⟩
    ∧ Arcow.deref_mut 4 id ⟨0⟩ (⟨[some ⟨1, 5⟩]⟩ : Heap Nat)
        = (⟨0⟩, ⟨[some ⟨1, 5⟩]⟩) :=
  ⟨by decide,
   (C2_deref_mut_in_place_when_unique 4 ⟨0⟩ ⟨[some ⟨1, 5⟩]⟩ 5 (by decide)).1 id⟩

/-- C10: in a sequential execution, the decrement `deref_mut`'s split branch
performs on the old allocation (precondition: count greater than 1) cannot
reach zero, so the old allocation is not freed: it is still live after the
split, its value intact, with a still-positive count. -/
theorem C10_split_never_frees_old_alloc {T : Type} (w : Nat) (cloneT : T → T)
    (a : Arcow) (h : Heap T) (c : Nat) (v : T)
    (hget : h.get a.inner = some ⟨c, v⟩) (hshared : 1 < c) (hclt : c < 2 ^ w) :
    (Arcow.deref_mut w cloneT a h).2.get a.inner = some ⟨c - 1, v⟩
    ∧ 0 < c - 1
    ∧ ((Arcow.deref_mut w cloneT a h).2.get a.inner).isSome = true := by
  have hcpos : 0 < c := by omega
  have halt := Heap.get_lt_length hget
  rw [Arcow.deref_mut_split w cloneT a h hget hshared, wrapDecr_eq hcpos hclt]
  dsimp only
  have hg : (Heap.set ⟨h.slots ++ [some ⟨1, cloneT v⟩]⟩ a.inner
      (some ⟨c - 1, v⟩)).get a.inner = some ⟨c - 1, v⟩ :=
    Heap.get_set_self _ _ _ (by simp; omega)
  exact ⟨hg, by omega, by rw [hg]; rfl⟩

/-- Witness for C10 at a concrete shared allocation (count 3, value 7). -/
theorem C10_witness :
    ((⟨[some ⟨3, 7⟩]⟩ : Heap Nat).get (Arcow.inner ⟨0⟩) = some ⟨3, 7⟩
      ∧ 1 < 3 ∧ 3 < 2 ^ 4)
    ∧ (Arcow.deref_mut 4 id ⟨0⟩ (⟨[some ⟨3, 7⟩]⟩ : Heap Nat)).2.get 0 = some ⟨2, 7⟩ :=
  ⟨⟨by decide, by decide, by decide⟩,
   (C10_split_never_frees_old_alloc 4 id ⟨0⟩ ⟨[some ⟨3, 7⟩]⟩ 3 7 (by decide) (by decide)
     (by decide)).1⟩

/-- C8: `deref` on a live allocation always succeeds and returns exactly the
stored value, its result does not depend on the allocation's count (no count
check), and — taking `&self` — it returns the heap exactly as given: no side
effect on any count or value and no allocation, shared or not. -/
theorem C8_deref_pure {T : Type} (a : Arcow) (h : Heap T) (inner : ArcowInner T)
    (hget : h.get a.inner = some inner) :
    Arcow.deref a h = some inner.inner
    ∧ (∀ c : Nat, Arcow.deref a (h.set a.inner (some ⟨c, inner.inner⟩)) = some inner.inner)
    ∧ (Arcow.derefOp a h).2 = h
    ∧ (Arcow.derefOp a h).1.isSome = true := by
  have halt := Heap.get_lt_length hget
  have h1 : Arcow.deref a h = some inner.inner := by
    rw [Arcow.deref, hget]
    rfl
  refine ⟨h1, ?_, rfl, ?_⟩
  · intro c
    rw [Arcow.deref, Heap.get_set_self _ _ _ halt]
    rfl
  · rw [Arcow.derefOp]
    dsimp only
    rw [h1]
    rfl

/-- Witness for C8 at a concrete allocation (count 5, value 3). -/
theorem C8_witness :
    (⟨[some ⟨5, 3⟩]⟩ : Heap Nat).get (Arcow.inner ⟨0⟩) = some ⟨5, 3⟩
    ∧ Arcow.deref ⟨0⟩ (⟨[some ⟨5, 3⟩]⟩ : Heap Nat) = some 3 :=
  ⟨by decide, (C8_deref_pure ⟨0⟩ ⟨[some ⟨5, 3⟩]⟩ ⟨5, 3⟩ (by decide)).1⟩

/-- C9: the reference counter is a machine word (width `w`) with no
upper-bound check: `clone` unconditionally performs a wrapping increment, so
the count after a clone reads `(c + 1) % 2 ^ w`, and cloning a handle whose
allocation count is `2 ^ w - 1` wraps the count to 0. -/
theorem C9_clone_count_wraps {T : Type} (w : Nat) (a : Arcow) (h : Heap T)
    (c : Nat) (v : T) (hget : h.get a.inner = some ⟨c, v⟩) :
    Arcow.count a (Arcow.clone w a h).2 = (c + 1) % 2 ^ w
    ∧ (c = 2 ^ w - 1 → Arcow.count a (Arcow.clone w a h).2 = 0) := by
  have halt := Heap.get_lt_length hget
  have h1 : Arcow.count a (Arcow.clone w a h).2 = (c + 1) % 2 ^ w := by
    rw [Arcow.clone_spec w a h hget]
    dsimp only
    exact Arcow.count_eq a _ (Heap.get_set_self _ _ _ halt)
  refine ⟨h1, fun hc => ?_⟩
  subst hc
  rw [h1]
  have hpow : 1 ≤ 2 ^ w := Nat.one_le_two_pow
  have h2 : 2 ^ w - 1 + 1 = 2 ^ w := by omega
  rw [h2, Nat.mod_self]

/-- Witness for C9: with a 4-bit word, cloning at count 15 wraps the count
to 0. -/
theorem C9_witness :
    (⟨[some ⟨15, 9⟩]⟩ : Heap Nat).get (Arcow.inner ⟨0⟩) = some ⟨15, 9⟩
    ∧ Arcow.count ⟨0⟩ (Arcow.clone 4 ⟨0⟩ (⟨[some ⟨15, 9⟩]⟩ : Heap Nat)).2 = 0 :=
  ⟨by decide,
   (C9_clone_count_wraps 4 ⟨0⟩ ⟨[some ⟨15, 9⟩]⟩ 15 9 (by decide)).2 (by decide)⟩

/-- Running clone operations alone on a single-allocation state: `N` clones
turn `n` handles of the allocation into `n + N`, the count tracking exactly. -/
theorem steps_clones {T : Type} (w : Nat) (cloneT : T → T) (v : T) (is : List Nat) :
    ∀ n : Nat, 1 ≤ n →
      (∀ k (hk : k < is.length), is[k] < n + k) →
      n + is.length < 2 ^ w →
      steps w cloneT (is.map Op.cloneOp) ⟨List.replicate n ⟨0⟩, ⟨[some ⟨n, v⟩]⟩⟩
        = ⟨List.replicate (n + is.length) ⟨0⟩, ⟨[some ⟨n + is.length, v⟩]⟩⟩ := by
  induction is with
  | nil =>
      intro n hn hidx hw
      simp [steps]
  | cons i is ih =>
      intro n hn hidx hw
      have hi : i < n := by
        have h0 := hidx 0 (by simp)
        simpa using h0
      have hgel : (List.replicate n (⟨0⟩ : Arcow))[i]? = some ⟨0⟩ := by
        rw [List.getElem?_replicate, if_pos hi]
      have hstep : step w cloneT (Op.cloneOp i) ⟨List.replicate n ⟨0⟩, ⟨[some ⟨n, v⟩]⟩⟩
          = ⟨List.replicate (n + 1) ⟨0⟩, ⟨[some ⟨n + 1, v⟩]⟩⟩ := by
        simp only [step, hgel]
        rw [Arcow.clone_spec w ⟨0⟩ _
              (show Heap.get ⟨[some ⟨n, v⟩]⟩ (Arcow.inner ⟨0⟩) = some ⟨n, v⟩ from rfl)]
        rw [wrapIncr_eq (by simp at hw; omega)]
        rw [List.replicate_succ']
        rfl
      rw [List.map_cons, steps, hstep]
      have hidx2 : ∀ k (hk : k < is.length), is[k] < n + 1 + k := by
        intro k hk
        have h1 := hidx (k + 1) (by simp; omega)
        simp only [List.getElem_cons_succ] at h1
        omega
      have hrun := ih (n + 1) (by omega) hidx2 (by simp at hw ⊢; omega)
      rw [hrun]
      have hlen : n + 1 + is.length = n + (i :: is).length := by simp; omega
      rw [hlen]

/-- C5: construction yields an allocation with count 1, and after any sequence
of `N` clone operations starting from one freshly constructed handle (each
clone may target any of the handles existing at that point), with no drops or
mutations in between, all `N + 1` resulting handles are live and `count` on
every one of them returns `N + 1`. -/
theorem C5_counts_after_clones {T : Type} (w : Nat) (cloneT : T → T) (v : T)
    (is : List Nat)
    (hidx : ∀ k (hk : k < is.length), is[k] < 1 + k)
    (hw : is.length + 2 ≤ 2 ^ w) :
    Arcow.count (Arcow.new v ⟨[]⟩).1 (Arcow.new v ⟨[]⟩).2 = 1
    ∧ (steps w cloneT (is.map Op.cloneOp)
        (step w cloneT (Op.newOp v) State.init)).handles.length = is.length + 1
    ∧ ∀ a ∈ (steps w cloneT (is.map Op.cloneOp)
        (step w cloneT (Op.newOp v) State.init)).handles,
        Arcow.count a
          (steps w cloneT (is.map Op.cloneOp)
            (step w cloneT (Op.newOp v) State.init)).heap = is.length + 1 := by
  have hinit : step w cloneT (Op.newOp v) State.init
      = ⟨List.replicate 1 ⟨0⟩, (⟨[some ⟨1, v⟩]⟩ : Heap T)⟩ := rfl
  have hrun := steps_clones w cloneT v is 1 (le_refl 1) hidx (by omega)
  rw [hinit, hrun]
  refine ⟨rfl, ?_, ?_⟩
  · simp
    omega
  · intro a ha
    dsimp only at ha ⊢
    rw [List.mem_replicate] at ha
    obtain ⟨-, rfl⟩ := ha
    have hc := Arcow.count_eq (⟨0⟩ : Arcow) (⟨[some ⟨1 + is.length, v⟩]⟩ : Heap T)
      (show Heap.get ⟨[some ⟨1 + is.length, v⟩]⟩ (Arcow.inner ⟨0⟩)
          = some ⟨1 + is.length, v⟩ from rfl)
    rw [hc]
    omega

/-- Witness for C5: three clones of a fresh handle, every handle counts 4. -/
theorem C5_witness :
    ((steps 8 id ([0, 1, 0].map Op.cloneOp)
        (step 8 id (Op.newOp (5 : Nat)) State.init)).handles.length = 3 + 1)
    ∧ ∀ a ∈ (steps 8 id ([0, 1, 0].map Op.cloneOp)
        (step 8 id (Op.newOp (5 : Nat)) State.init)).handles,
        Arcow.count a (steps 8 id ([0, 1, 0].map Op.cloneOp)
          (step 8 id (Op.newOp (5 : Nat)) State.init)).heap = 3 + 1 := by
  have h := C5_counts_after_clones 8 id (5 : Nat) [0, 1, 0]
    (by
      intro k hk
      simp only [List.length_cons, List.length_nil] at hk
      interval_cases k <;> simp) (by norm_num)
  exact ⟨h.2.1, h.2.2⟩

/-- C6: for a fresh handle `a`, `count a = 1`; immediately after `b = clone a`,
`count a = count b = 2`; immediately after mutating through `b` (with no other
operation in between), the mutated handle's count is 1 and `a`'s count is also
1, the split having decremented the shared count from 2 to 1. -/
theorem C6_count_transitions {T : Type} (w : Nat) (cloneT : T → T) (v u : T)
    (hw : 2 < 2 ^ w) :
    Arcow.count (Arcow.new v ⟨[]⟩).1 (Arcow.new v ⟨[]⟩).2 = 1
    ∧ Arcow.count (Arcow.new v ⟨[]⟩).1
        (Arcow.clone w (Arcow.new v ⟨[]⟩).1 (Arcow.new v ⟨[]⟩).2).2 = 2
    ∧ Arcow.count (Arcow.clone w (Arcow.new v ⟨[]⟩).1 (Arcow.new v ⟨[]⟩).2).1
        (Arcow.clone w (Arcow.new v ⟨[]⟩).1 (Arcow.new v ⟨[]⟩).2).2 = 2
    ∧ Arcow.count
        (Arcow.write w cloneT (Arcow.clone w (Arcow.new v ⟨[]⟩).1 (Arcow.new v ⟨[]⟩).2).1 u
          (Arcow.clone w (Arcow.new v ⟨[]⟩).1 (Arcow.new v ⟨[]⟩).2).2).1
        (Arcow.write w cloneT (Arcow.clone w (Arcow.new v ⟨[]⟩).1 (Arcow.new v ⟨[]⟩).2).1 u
          (Arcow.clone w (Arcow.new v ⟨[]⟩).1 (Arcow.new v ⟨[]⟩).2).2).2 = 1
    ∧ Arcow.count (Arcow.new v ⟨[]⟩).1
        (Arcow.write w cloneT (Arcow.clone w (Arcow.new v ⟨[]⟩).1 (Arcow.new v ⟨[]⟩).2).1 u
          (Arcow.clone w (Arcow.new v ⟨[]⟩).1 (Arcow.new v ⟨[]⟩).2).2).2 = 1 := by
  have e1 : Arcow.new v (⟨[]⟩ : Heap T) = (⟨0⟩, ⟨[some ⟨1, v⟩]⟩) := rfl
  have e2 : Arcow.clone w (⟨0⟩ : Arcow) (⟨[some ⟨1, v⟩]⟩ : Heap T)
      = (⟨0⟩, ⟨[some ⟨2, v⟩]⟩) := by
    rw [Arcow.clone_spec w ⟨0⟩ _
          (show Heap.get ⟨[some ⟨1, v⟩]⟩ (Arcow.inner ⟨0⟩) = some ⟨1, v⟩ from rfl)]
    rw [wrapIncr_eq hw]
    rfl
  have hmut : Arcow.deref_mut w cloneT (⟨0⟩ : Arcow) (⟨[some ⟨2, v⟩]⟩ : Heap T)
      = (⟨1⟩, ⟨[some ⟨1, v⟩, some ⟨1, cloneT v⟩]⟩) := by
    rw [Arcow.deref_mut_split w cloneT ⟨0⟩ ⟨[some ⟨2, v⟩]⟩
          (show Heap.get ⟨[some ⟨2, v⟩]⟩ (Arcow.inner ⟨0⟩) = some ⟨2, v⟩ from rfl)
          (by omega)]
    rw [wrapDecr_eq (by omega) hw]
    rfl
  have e3 : Arcow.write w cloneT (⟨0⟩ : Arcow) u (⟨[some ⟨2, v⟩]⟩ : Heap T)
      = (⟨1⟩, ⟨[some ⟨1, v⟩, some ⟨1, u⟩]⟩) := by
    simp only [Arcow.write, hmut]
    rfl
  rw [e1]
  dsimp only
  rw [e2]
  dsimp only
  rw [e3]
  exact ⟨rfl, rfl, rfl, rfl, rfl⟩

/-- Witness for C6 at `w = 2`, wrapping value 0 mutated to 1. -/
theorem C6_witness :
    2 < 2 ^ 2
    ∧ Arcow.count (Arcow.new (0 : Nat) ⟨[]⟩).1
        (Arcow.write 2 id (Arcow.clone 2 (Arcow.new (0 : Nat) ⟨[]⟩).1
            (Arcow.new (0 : Nat) ⟨[]⟩).2).1 1
          (Arcow.clone 2 (Arcow.new (0 : Nat) ⟨[]⟩).1
            (Arcow.new (0 : Nat) ⟨[]⟩).2).2).2 = 1 :=
  ⟨by decide, (C6_count_transitions 2 id (0 : Nat) 1 (by decide)).2.2.2.2⟩

/-- C3: for a handle `a` and `b = clone a` (the allocation is now shared),
mutating through `b` leaves the value read through `a` unchanged, and the
previously shared allocation's count comes back down by exactly one net of the
split: afterwards `a`'s allocation count again reflects only the handles that
still reference it. -/
theorem C3_split_isolates_mutation {T : Type} (w : Nat) (cloneT : T → T)
    (a : Arcow) (h : Heap T) (c : Nat) (v u : T)
    (hget : h.get a.inner = some ⟨c, v⟩) (hcpos : 0 < c) (hlt : c + 1 < 2 ^ w) :
    Arcow.deref a (Arcow.write w cloneT (Arcow.clone w a h).1 u (Arcow.clone w a h).2).2
      = some v
    ∧ Arcow.count a (Arcow.write w cloneT (Arcow.clone w a h).1 u (Arcow.clone w a h).2).2
      = c := by
  have halt := Heap.get_lt_length hget
  have hne : a.inner ≠ h.slots.length := by omega
  rw [Arcow.clone_spec w a h hget, wrapIncr_eq hlt]
  have hget1 : (h.set a.inner (some ⟨c + 1, v⟩)).get (Arcow.inner ⟨a.inner⟩)
      = some ⟨c + 1, v⟩ := Heap.get_set_self _ _ _ halt
  have hmut := Arcow.deref_mut_split w cloneT ⟨a.inner⟩
    (h.set a.inner (some ⟨c + 1, v⟩)) hget1 (by omega)
  rw [wrapDecr_eq (by omega) (by omega)] at hmut
  rw [Heap.length_set] at hmut
  simp only [Arcow.write, hmut]
  have hgetlen : (Heap.set ⟨(h.set a.inner (some ⟨c + 1, v⟩)).slots
        ++ [some ⟨1, cloneT v⟩]⟩ a.inner (some ⟨c + 1 - 1, v⟩)).get
        (Arcow.inner ⟨h.slots.length⟩) = some ⟨1, cloneT v⟩ := by
    rw [Heap.get_set_ne _ _ hne, Heap.get_append_one]
    simp [Heap.set]
  rw [Arcow.setValue_spec _ u _ hgetlen]
  have hga3 : ((Heap.set ⟨(h.set a.inner (some ⟨c + 1, v⟩)).slots
        ++ [some ⟨1, cloneT v⟩]⟩ a.inner (some ⟨c + 1 - 1, v⟩)).set
        (Arcow.inner ⟨h.slots.length⟩) (some ⟨1, u⟩)).get a.inner
      = some ⟨c + 1 - 1, v⟩ := by
    rw [Heap.get_set_ne _ _ (fun he => hne he.symm)]
    exact Heap.get_set_self _ _ _ (by simp [Heap.set]; omega)
  constructor
  · rw [Arcow.deref, hga3]
    rfl
  · rw [Arcow.count_eq a _ hga3]
    omega

/-- Witness for C3 at a concrete allocation (count 1, value 5, mutated to 9). -/
theorem C3_witness :
    ((⟨[some ⟨1, 5⟩]⟩ : Heap Nat).get (Arcow.inner ⟨0⟩) = some ⟨1, 5⟩
      ∧ 0 < 1 ∧ 1 + 1 < 2 ^ 4)
    ∧ Arcow.deref ⟨0⟩ (Arcow.write 4 id
        (Arcow.clone 4 ⟨0⟩ (⟨[some ⟨1, 5⟩]⟩ : Heap Nat)).1 9
        (Arcow.clone 4 ⟨0⟩ (⟨[some ⟨1, 5⟩]⟩ : Heap Nat)).2).2 = some 5
    ∧ Arcow.count ⟨0⟩ (Arcow.write 4 id
        (Arcow.clone 4 ⟨0⟩ (⟨[some ⟨1, 5⟩]⟩ : Heap Nat)).1 9
        (Arcow.clone 4 ⟨0⟩ (⟨[some ⟨1, 5⟩]⟩ : Heap Nat)).2).2 = 1 := by
  have h := C3_split_isolates_mutation 4 id ⟨0⟩ ⟨[some ⟨1, 5⟩]⟩ 1 5 9
    (by decide) (by decide) (by decide)
  exact ⟨⟨by decide, by decide, by decide⟩, h.1, h.2⟩

/-- Handles with equal pointers read equally in every heap. -/
theorem Arcow.deref_congr {T : Type} (b b' : Arcow) (hb : b.inner = b'.inner)
    (h : Heap T) : Arcow.deref b h = Arcow.deref b' h := by
  rw [Arcow.deref, Arcow.deref, hb]

/-- Reading through a handle right after writing through it yields exactly the
written value, on both the in-place and the split path. -/
theorem deref_write {T : Type} (w : Nat) (cloneT : T → T) (a : Arcow) (h : Heap T)
    (inner : ArcowInner T) (hget : h.get a.inner = some inner) (v : T) :
    Arcow.deref (Arcow.write w cloneT a v h).1 (Arcow.write w cloneT a v h).2
      = some v := by
  obtain ⟨c, v0⟩ := inner
  have halt := Heap.get_lt_length hget
  by_cases hc : 1 < c
  · have hne : a.inner ≠ h.slots.length := by omega
    have hmut := Arcow.deref_mut_split w cloneT a h hget hc
    simp only [Arcow.write, hmut]
    have hgetlen : (Heap.set ⟨h.slots ++ [some ⟨1, cloneT v0⟩]⟩ a.inner
        (some ⟨(c + (2 ^ w - 1)) % 2 ^ w, v0⟩)).get (Arcow.inner ⟨h.slots.length⟩)
        = some ⟨1, cloneT v0⟩ := by
      rw [Heap.get_set_ne _ _ hne, Heap.get_append_one]
      simp
    rw [Arcow.setValue_spec _ v _ hgetlen]
    rw [Arcow.deref]
    rw [Heap.get_set_self _ _ _ (by simp [Heap.set])]
    rfl
  · have hmut := Arcow.deref_mut_unique w cloneT a h hget hc
    simp only [Arcow.write, hmut]
    rw [Arcow.setValue_spec _ v _ hget]
    rw [Arcow.deref, Heap.get_set_self _ _ _ halt]
    rfl

/-- C7: reading through a handle immediately after writing through it yields
exactly the written value; immediately after a clone, the clone points at the
same allocation as the original, both read equal values (the stored value);
and a clone bumps only a count, never changing the value any handle reads, so
the two reads stay equal until one of the two handles is mutated. -/
theorem C7_reads_after_write_and_clone {T : Type} (w : Nat) (cloneT : T → T) :
    (∀ (a : Arcow) (h : Heap T) (inner : ArcowInner T) (v : T),
        h.get a.inner = some inner →
        Arcow.deref (Arcow.write w cloneT a v h).1 (Arcow.write w cloneT a v h).2
          = some v)
    ∧ (∀ (a : Arcow) (h : Heap T) (inner : ArcowInner T),
        h.get a.inner = some inner →
        (Arcow.clone w a h).1.inner = a.inner
        ∧ Arcow.deref (Arcow.clone w a h).1 (Arcow.clone w a h).2
            = Arcow.deref a (Arcow.clone w a h).2
        ∧ Arcow.deref a (Arcow.clone w a h).2 = some inner.inner)
    ∧ (∀ (x y : Arcow) (h : Heap T),
        Arcow.deref x (Arcow.clone w y h).2 = Arcow.deref x h) := by
  refine ⟨?_, ?_, ?_⟩
  · intro a h inner v hget
    exact deref_write w cloneT a h inner hget v
  · intro a h inner hget
    obtain ⟨c, v⟩ := inner
    have h1 : (Arcow.clone w a h).1.inner = a.inner := by
      rw [Arcow.clone_spec w a h hget]
    refine ⟨h1, Arcow.deref_congr _ _ h1 _, ?_⟩
    rw [Arcow.clone_spec w a h hget]
    dsimp only
    rw [Arcow.deref, Heap.get_set_self _ _ _ (Heap.get_lt_length hget)]
    rfl
  · intro x y h
    cases hgy : h.get y.inner with
    | none =>
        simp only [Arcow.clone, hgy]
    | some inner =>
        obtain ⟨c, v⟩ := inner
        rw [Arcow.clone_spec w y h hgy]
        dsimp only
        by_cases hxy : y.inner = x.inner
        · rw [Arcow.deref, Arcow.deref, ← hxy,
              Heap.get_set_self _ _ _ (Heap.get_lt_length hgy), hgy]
          rfl
        · rw [Arcow.deref, Arcow.deref, Heap.get_set_ne _ _ hxy]

/-- Witness for C7: write 9 through a unique handle, then read it back. -/
theorem C7_witness :
    (⟨[some ⟨1, 3⟩]⟩ : Heap Nat).get (Arcow.inner ⟨0⟩) = some ⟨1, 3⟩
    ∧ Arcow.deref (Arcow.write 4 id ⟨0⟩ 9 (⟨[some ⟨1, 3⟩]⟩ : Heap Nat)).1
        (Arcow.write 4 id ⟨0⟩ 9 (⟨[some ⟨1, 3⟩]⟩ : Heap Nat)).2 = some 9 :=
  ⟨by decide,
   (C7_reads_after_write_and_clone 4 id).1 ⟨0⟩ ⟨[some ⟨1, 3⟩]⟩ ⟨1, 3⟩ 9 (by decide)⟩

/-- C4: a shared allocation and its value are destroyed exactly when the
counter goes from 1 to 0. Dropping a handle whose allocation count is above 1
decrements the count by one and leaves the allocation live; the drop that sees
count 1 frees the allocation (the value's single destruction); and for every
bounded sequence of operations starting from nothing, once all handles derived
from the constructed ones are dropped, the number of live value instances
is 0. -/
theorem C4_destroyed_exactly_at_zero {T : Type} (w : Nat) (cloneT : T → T) :
    (∀ (a : Arcow) (h : Heap T) (c : Nat) (v : T),
        h.get a.inner = some ⟨c, v⟩ → 1 < c → c < 2 ^ w →
        (Arcow.drop w a h).get a.inner = some ⟨c - 1, v⟩)
    ∧ (∀ (a : Arcow) (h : Heap T) (v : T),
        h.get a.inner = some ⟨1, v⟩ →
        (Arcow.drop w a h).get a.inner = none)
    ∧ (∀ ops : List (Op T),
        boundedRun w cloneT ops State.init = true →
        (steps w cloneT ops State.init).handles = [] →
        (steps w cloneT ops State.init).heap.liveValues = 0) := by
  refine ⟨?_, ?_, ?_⟩
  · intro a h c v hget h1 h2
    rw [Arcow.drop_dec w a h hget (by omega), wrapDecr_eq (by omega) h2]
    exact Heap.get_set_self _ _ _ (Heap.get_lt_length hget)
  · intro a h v hget
    rw [Arcow.drop_free w a h hget]
    exact Heap.get_set_self _ _ _ (Heap.get_lt_length hget)
  · intro ops hb hnone
    exact liveValues_eq_zero _ (wf_steps w cloneT ops State.init wf_init hb) hnone

/-- Witness for C4: the crate's own `dropping` test sequence (new, four
clones, a drop, a mutation through a shared handle, then dropping the rest)
ends with zero live value instances. -/
theorem C4_witness :
    (boundedRun 8 id
        [Op.newOp (7 : Nat), Op.cloneOp 0, Op.cloneOp 1, Op.cloneOp 0, Op.cloneOp 0,
         Op.dropOp 4, Op.writeOp 3 9, Op.dropOp 1, Op.dropOp 1, Op.dropOp 1, Op.dropOp 0]
        State.init = true
      ∧ (steps 8 id
        [Op.newOp (7 : Nat), Op.cloneOp 0, Op.cloneOp 1, Op.cloneOp 0, Op.cloneOp 0,
         Op.dropOp 4, Op.writeOp 3 9, Op.dropOp 1, Op.dropOp 1, Op.dropOp 1, Op.dropOp 0]
        State.init).handles = [])
    ∧ (steps 8 id
        [Op.newOp (7 : Nat), Op.cloneOp 0, Op.cloneOp 1, Op.cloneOp 0, Op.cloneOp 0,
         Op.dropOp 4, Op.writeOp 3 9, Op.dropOp 1, Op.dropOp 1, Op.dropOp 1, Op.dropOp 0]
        State.init).heap.liveValues = 0 :=
  ⟨⟨by decide, by decide⟩,
   (C4_destroyed_exactly_at_zero 8 id).2.2
     [Op.newOp (7 : Nat), Op.cloneOp 0, Op.cloneOp 1, Op.cloneOp 0, Op.cloneOp 0,
      Op.dropOp 4, Op.writeOp 3 9, Op.dropOp 1, Op.dropOp 1, Op.dropOp 1, Op.dropOp 0]
     (by decide) (by decide)⟩
